import Mathlib

/-!
Verification of `src/tool/adder_derivation.py`, a one-shot generator that
builds the ripple-carry recurrence `c[0] = p[0]`, `c[i] = p[i] | (s[i] & c[i-1])`
for 32 bits over atomic sympy symbols `p[i] = Symbol("(a[i] & b[i])")`,
`s[i] = Symbol("(a[i] | b[i])")`, converts each carry to disjunctive normal
form and prints one `assign` line per bit.
-/

namespace AdderDerivation

/-- The atomic symbols of the script: `Atom.p i` is the sympy
`Symbol("(a[i] & b[i])")` and `Atom.s i` is `Symbol("(a[i] | b[i])")`.
Both are opaque atoms to the boolean algebra layer. -/
inductive Atom where
  | p (i : Nat)
  | s (i : Nat)
deriving DecidableEq, Repr

/-- Symbolic boolean expressions as built by the script: the two atom
families and sympy's `And` / `Or` connectives (binary, as applied in the
source). -/
inductive BExpr where
  | atomP (i : Nat)
  | atomS (i : Nat)
  | and (e₁ e₂ : BExpr)
  | or (e₁ e₂ : BExpr)
deriving DecidableEq, Repr

/-- Source line 4: `p = [Symbol(f"(a[{i}] & b[{i}])") for i in range(32)]`. -/
def pList : List BExpr := (List.range 32).map BExpr.atomP

/-- Source line 5: `s = [Symbol(f"(a[{i}] | b[{i}])") for i in range(32)]`. -/
def sList : List BExpr := (List.range 32).map BExpr.atomS

/-- One iteration of the construction loop (source lines 7-8):
`c.append(Or(p[i], And(s[i], c[i - 1])))`.  The Python list accesses
`c[i - 1]`, `p[i]`, `s[i]` can raise `IndexError`, so the step is embedded
fallibly. -/
def buildStep (acc : Except String (List BExpr)) (i : Nat) :
    Except String (List BExpr) :=
  match acc with
  | .error msg => .error msg
  | .ok l =>
    match l.get? (i - 1), pList.get? i, sList.get? i with
    | some prev, some pe, some se => .ok (l ++ [BExpr.or pe (BExpr.and se prev)])
    | _, _, _ => .error "IndexError"

/-- Source lines 6-8: `c = [p[0]]` followed by
`for i in range(1, 32): c.append(Or(p[i], And(s[i], c[i - 1])))`. -/
def buildC : Except String (List BExpr) :=
  (List.range' 1 31).foldl buildStep (Except.ok [pList.getD 0 (BExpr.atomP 0)])

/-- The closed recursive form of the carry chain built by the loop:
`carry 0 = p[0]`, `carry (i+1) = Or(p[i+1], And(s[i+1], carry i))`. -/
def carry : Nat → BExpr
  | 0 => BExpr.atomP 0
  | i + 1 => BExpr.or (BExpr.atomP (i + 1)) (BExpr.and (BExpr.atomS (i + 1)) (carry i))

/-- The list of the 32 carry expressions in index order. -/
def cList : List BExpr := (List.range 32).map carry

lemma pList_get? {i : Nat} (h : i < 32) : pList.get? i = some (BExpr.atomP i) := by
  simp [pList, List.get?_eq_getElem?, List.getElem?_map, List.getElem?_range h]

lemma sList_get? {i : Nat} (h : i < 32) : sList.get? i = some (BExpr.atomS i) := by
  simp [sList, List.get?_eq_getElem?, List.getElem?_map, List.getElem?_range h]

lemma cList_length : cList.length = 32 := by
  simp [cList]

lemma cList_getD {i : Nat} (h : i < 32) :
    cList.getD i (BExpr.atomP 0) = carry i := by
  simp [cList, List.getD, List.get?_eq_getElem?, List.getElem?_map,
    List.getElem?_range h]

/-- The fold of the construction loop up to bound `n` succeeds and produces
exactly the carries `carry 0, ..., carry n`. -/
lemma buildC_aux (n : Nat) (hn : n ≤ 31) :
    (List.range' 1 n).foldl buildStep (Except.ok [pList.getD 0 (BExpr.atomP 0)]) =
      Except.ok ((List.range (n + 1)).map carry) := by
  induction n with
  | zero => rfl
  | succ n ih =>
    have hn' : n ≤ 31 := Nat.le_of_succ_le hn
    have hidx : n + 1 < 32 := by omega
    rw [List.range'_concat, List.foldl_append, ih hn']
    have e : 1 + 1 * n = n + 1 := by omega
    rw [e]
    have hget : ((List.range (n + 1)).map carry).get? (n + 1 - 1) = some (carry n) := by
      rw [Nat.add_sub_cancel]
      simp [List.get?_eq_getElem?, List.getElem?_map,
        List.getElem?_range (Nat.lt_succ_self n)]
    simp only [List.foldl_cons, List.foldl_nil, buildStep, hget,
      pList_get? hidx, sList_get? hidx]
    have hr : (List.range (n + 1 + 1)).map carry
        = (List.range (n + 1)).map carry ++ [carry (n + 1)] := by
      rw [List.range_succ, List.map_append]
      rfl
    rw [hr]
    rfl

/-- The construction loop succeeds and yields exactly the recursive carry
chain `cList`. -/
lemma buildC_eq : buildC = Except.ok cList := by
  have h := buildC_aux 31 (le_refl 31)
  simpa [buildC, cList] using h

/-- A valuation assigns a boolean to every atom. -/
abbrev Valuation : Type := Atom → Bool

/-- Evaluation of a symbolic expression under a valuation of its atoms. -/
def evalExpr (v : Valuation) : BExpr → Bool
  | .atomP i => v (Atom.p i)
  | .atomS i => v (Atom.s i)
  | .and e₁ e₂ => evalExpr v e₁ && evalExpr v e₂
  | .or e₁ e₂ => evalExpr v e₁ || evalExpr v e₂

/-- The intended reading of the atoms over concrete input bits `a`, `b`:
`p[i]` means `AND(a[i], b[i])` and `s[i]` means `OR(a[i], b[i])`. -/
def interp (a b : Nat → Bool) : Valuation
  | .p i => a i && b i
  | .s i => a i || b i

/-- A DNF is a list of clauses, each clause a list of (positive) atoms;
the expression language has no negation, so no signed literals arise. -/
abbrev Dnf : Type := List (List Atom)

/-- Disjunction of two DNFs: concatenate the clause lists. -/
def dnfOr (d₁ d₂ : Dnf) : Dnf := d₁ ++ d₂

/-- Conjunction of two DNFs: distribute, pairing every clause of the first
with every clause of the second. -/
def dnfAnd (d₁ d₂ : Dnf) : Dnf :=
  d₁.flatMap (fun c₁ => d₂.map (fun c₂ => c₁ ++ c₂))

/-- Modelled from the spec: the repository calls sympy's `to_dnf`
(source line 10), a library routine whose code is not part of this
repository.  Per spec section 9 it is the capability "reduce a boolean
expression tree to DNF" satisfying the logical-equivalence property of
section 8; it is modelled as the standard distribution of AND over OR. -/
def to_dnf : BExpr → Dnf
  | .atomP i => [[Atom.p i]]
  | .atomS i => [[Atom.s i]]
  | .or e₁ e₂ => dnfOr (to_dnf e₁) (to_dnf e₂)
  | .and e₁ e₂ => dnfAnd (to_dnf e₁) (to_dnf e₂)

/-- A clause holds when all its atoms hold. -/
def evalClause (v : Valuation) (cl : List Atom) : Bool := cl.all v

/-- A DNF holds when some clause holds. -/
def evalDnf (v : Valuation) (d : Dnf) : Bool := d.any (evalClause v)

lemma evalDnf_dnfOr (v : Valuation) (d₁ d₂ : Dnf) :
    evalDnf v (dnfOr d₁ d₂) = (evalDnf v d₁ || evalDnf v d₂) := by
  simp [evalDnf, dnfOr]

lemma evalClause_append (v : Valuation) (c₁ c₂ : List Atom) :
    evalClause v (c₁ ++ c₂) = (evalClause v c₁ && evalClause v c₂) := by
  simp [evalClause]

lemma evalDnf_dnfAnd (v : Valuation) (d₁ d₂ : Dnf) :
    evalDnf v (dnfAnd d₁ d₂) = (evalDnf v d₁ && evalDnf v d₂) := by
  induction d₁ with
  | nil => simp [evalDnf, dnfAnd]
  | cons c₁ d₁ ih =>
    simp only [dnfAnd, List.flatMap_cons, evalDnf, List.any_append, List.any_cons,
      List.any_map] at ih ⊢
    rw [show (evalClause v ∘ fun c₂ => c₁ ++ c₂)
        = fun c₂ => evalClause v c₁ && evalClause v c₂ by
      funext c₂
      simp [evalClause_append]]
    cases h₁ : evalClause v c₁ <;> simp [ih, evalDnf]

/-- Soundness of the DNF conversion: it preserves evaluation under every
valuation. -/
lemma to_dnf_sound (v : Valuation) : ∀ e : BExpr, evalDnf v (to_dnf e) = evalExpr v e
  | .atomP i => by simp [to_dnf, evalDnf, evalClause, evalExpr]
  | .atomS i => by simp [to_dnf, evalDnf, evalClause, evalExpr]
  | .or e₁ e₂ => by
    rw [to_dnf, evalDnf_dnfOr, to_dnf_sound v e₁, to_dnf_sound v e₂, evalExpr]
  | .and e₁ e₂ => by
    rw [to_dnf, evalDnf_dnfAnd, to_dnf_sound v e₁, to_dnf_sound v e₂, evalExpr]

/-- The sympy symbol name of each atom, exactly as created on source
lines 4-5. -/
def atomName : Atom → String
  | .p i => "(a[" ++ Nat.repr i ++ "] & b[" ++ Nat.repr i ++ "])"
  | .s i => "(a[" ++ Nat.repr i ++ "] | b[" ++ Nat.repr i ++ "])"

/-- Join a list of strings with a separator between consecutive elements. -/
def joinSep (sep : String) : List String → String
  | [] => ""
  | [x] => x
  | x :: y :: rest => x ++ sep ++ joinSep sep (y :: rest)

/-- Modelled from the spec: the textual rendering of a DNF is sympy's
default string renderer, not code of this repository; per spec sections 6
and 9 it is "the library's default string rendering" and "not independently
meaningful".  Modelled as clauses joined by the OR symbol, atoms of a
clause joined by the AND symbol. -/
def renderClause (cl : List Atom) : String :=
  joinSep " & " (cl.map atomName)

/-- Modelled from the spec: see `renderClause`. -/
def renderDnf (d : Dnf) : String :=
  joinSep " | " (d.map renderClause)

/-- One print statement of the output loop (source line 10):
`print(f"    assign c[{i}] = {to_dnf(c[i])};")`. -/
def formatLine (i : Nat) (e : BExpr) : String :=
  "    assign c[" ++ Nat.repr i ++ "] = " ++ renderDnf (to_dnf e) ++ ";"

/-- The sequence of bit indices iterated by the print loop, `range(32)`
(source line 9). -/
def loopIndices : List Nat := List.range 32

/-- The complete standard output of the script, one string per print call
(source lines 9-10), empty if construction failed. -/
def output : List String :=
  match buildC with
  | .error _ => []
  | .ok l => loopIndices.map (fun i => formatLine i (l.getD i (BExpr.atomP 0)))

lemma output_eq : output = (List.range 32).map (fun i => formatLine i (carry i)) := by
  unfold output
  rw [buildC_eq]
  refine List.map_congr_left ?_
  intro i hi
  rw [cList_getD (List.mem_range.mp hi)]

lemma output_length : output.length = 32 := by
  rw [output_eq]
  simp

lemma output_getD {i : Nat} (h : i < 32) :
    output.getD i "" = formatLine i (carry i) := by
  rw [output_eq]
  simp [List.getD, List.get?_eq_getElem?, List.getElem?_map, List.getElem?_range h]

/-- Modelled from the spec: the invocation context (spec section 6), "a
zero-argument command run from a shell; no flags, no environment variables,
no configuration file".  The script reads none of it. -/
structure Environment where
  args : List String
  vars : List (String × String)

/-- A complete run of the generator in an arbitrary invocation environment:
the script reads no input, so every run emits `output`. -/
def run (_env : Environment) : List String := output

/-- The reference recurrence of spec section 8 on concrete input bits:
`c[0] = a[0] AND b[0]`, `c[i] = (a[i] AND b[i]) OR ((a[i] OR b[i]) AND c[i-1])`. -/
def specCarry (a b : Nat → Bool) : Nat → Bool
  | 0 => a 0 && b 0
  | i + 1 => (a (i + 1) && b (i + 1)) || ((a (i + 1) || b (i + 1)) && specCarry a b i)

lemma evalExpr_carry (a b : Nat → Bool) (i : Nat) :
    evalExpr (interp a b) (carry i) = specCarry a b i := by
  induction i with
  | zero => rfl
  | succ i ih => simp [carry, evalExpr, specCarry, interp, ih]

/-- The atoms occurring in an expression, with multiplicity. -/
def atomsOf : BExpr → List Atom
  | .atomP i => [Atom.p i]
  | .atomS i => [Atom.s i]
  | .and e₁ e₂ => atomsOf e₁ ++ atomsOf e₂
  | .or e₁ e₂ => atomsOf e₁ ++ atomsOf e₂

lemma atomsOf_carry {i : Nat} {x : Atom} (hx : x ∈ atomsOf (carry i)) :
    (∃ j, j ≤ i ∧ x = Atom.p j) ∨ (∃ j, 1 ≤ j ∧ j ≤ i ∧ x = Atom.s j) := by
  induction i with
  | zero =>
    simp only [carry, atomsOf, List.mem_singleton] at hx
    exact Or.inl ⟨0, le_refl 0, hx⟩
  | succ i ih =>
    simp only [carry, atomsOf, List.mem_append, List.mem_singleton] at hx
    rcases hx with h | h | h
    · exact Or.inl ⟨i + 1, le_refl _, h⟩
    · exact Or.inr ⟨i + 1, Nat.succ_le_succ (Nat.zero_le i), le_refl _, h⟩
    · rcases ih h with ⟨j, hj, hx⟩ | ⟨j, hj1, hj, hx⟩
      · exact Or.inl ⟨j, Nat.le_succ_of_le hj, hx⟩
      · exact Or.inr ⟨j, hj1, Nat.le_succ_of_le hj, hx⟩

/-- Size of an expression tree, a bound on the recursion depth of the DNF
conversion. -/
def exprSize : BExpr → Nat
  | .atomP _ => 1
  | .atomS _ => 1
  | .and e₁ e₂ => exprSize e₁ + exprSize e₂ + 1
  | .or e₁ e₂ => exprSize e₁ + exprSize e₂ + 1

/-- The DNF conversion with an explicit fuel bound: it returns `none` only
when the fuel is exhausted, making termination of `to_dnf` an explicit,
checkable statement. -/
def to_dnfFuel : Nat → BExpr → Option Dnf
  | 0, _ => none
  | _ + 1, .atomP i => some [[Atom.p i]]
  | _ + 1, .atomS i => some [[Atom.s i]]
  | fuel + 1, .or e₁ e₂ =>
    match to_dnfFuel fuel e₁, to_dnfFuel fuel e₂ with
    | some d₁, some d₂ => some (dnfOr d₁ d₂)
    | _, _ => none
  | fuel + 1, .and e₁ e₂ =>
    match to_dnfFuel fuel e₁, to_dnfFuel fuel e₂ with
    | some d₁, some d₂ => some (dnfAnd d₁ d₂)
    | _, _ => none

lemma to_dnfFuel_complete :
    ∀ (fuel : Nat) (e : BExpr), exprSize e ≤ fuel →
      to_dnfFuel fuel e = some (to_dnf e) := by
  intro fuel
  induction fuel with
  | zero =>
    intro e he
    exact absurd he (by cases e <;> simp [exprSize])
  | succ fuel ih =>
    intro e he
    cases e with
    | atomP i => rfl
    | atomS i => rfl
    | or e₁ e₂ =>
      have h₁ : exprSize e₁ ≤ fuel := by simp [exprSize] at he; omega
      have h₂ : exprSize e₂ ≤ fuel := by simp [exprSize] at he; omega
      simp [to_dnfFuel, ih e₁ h₁, ih e₂ h₂, to_dnf]
    | and e₁ e₂ =>
      have h₁ : exprSize e₁ ≤ fuel := by simp [exprSize] at he; omega
      have h₂ : exprSize e₂ ≤ fuel := by simp [exprSize] at he; omega
      simp [to_dnfFuel, ih e₁ h₁, ih e₂ h₂, to_dnf]

/-- The gate atoms of the closed-form DNF clause generated at position `j`
of carry `i`: `s[i], s[i-1], ..., s[j+1]`, in the order the distribution
produces them. -/
def gateAtoms (j i : Nat) : List Atom :=
  ((List.range' (j + 1) (i - j)).reverse).map Atom.s

/-- The closed-form DNF clause for generate position `j` inside carry `i`:
the gate atoms `s[j+1..i]` followed by the generate atom `p[j]`. -/
def closedClause (j i : Nat) : List Atom := gateAtoms j i ++ [Atom.p j]

/-- The closed-form DNF of carry `i`: one clause per generate position,
from `j = i` down to `j = 0`. -/
def closedDnf (i : Nat) : Dnf :=
  (List.range (i + 1)).map (fun k => closedClause (i - k) i)

lemma gateAtoms_succ {j i : Nat} (h : j ≤ i) :
    gateAtoms j (i + 1) = Atom.s (i + 1) :: gateAtoms j i := by
  unfold gateAtoms
  have e : i + 1 - j = (i - j) + 1 := by omega
  rw [e, List.range'_concat, List.reverse_append, List.reverse_singleton]
  have e2 : j + 1 + 1 * (i - j) = i + 1 := by omega
  rw [e2]
  rfl

lemma closedClause_succ {j i : Nat} (h : j ≤ i) :
    closedClause j (i + 1) = Atom.s (i + 1) :: closedClause j i := by
  rw [closedClause, gateAtoms_succ h, closedClause, List.cons_append]

/-- The closed form of the DNF conversion applied to the carry chain. -/
lemma to_dnf_carry : ∀ i : Nat, to_dnf (carry i) = closedDnf i := by
  intro i
  induction i with
  | zero => rfl
  | succ i ih =>
    have step : to_dnf (carry (i + 1))
        = [Atom.p (i + 1)] :: (to_dnf (carry i)).map (fun cl => Atom.s (i + 1) :: cl) := by
      simp [carry, to_dnf, dnfOr, dnfAnd]
    have hrhs : closedDnf (i + 1)
        = [Atom.p (i + 1)] :: (closedDnf i).map (fun cl => Atom.s (i + 1) :: cl) := by
      unfold closedDnf
      rw [List.range_succ_eq_map, List.map_cons, List.map_map, List.map_map]
      have hhead : closedClause (i + 1 - 0) (i + 1) = [Atom.p (i + 1)] := by
        simp [closedClause, gateAtoms]
      rw [hhead]
      congr 1
      refine List.map_congr_left ?_
      intro k hk
      have hk' : k < i + 1 := List.mem_range.mp hk
      have e : i + 1 - (k + 1) = i - k := by omega
      have hj : i - k ≤ i := Nat.sub_le i k
      simp only [Function.comp]
      rw [show Nat.succ k = k + 1 from rfl, e, closedClause_succ hj]
    rw [step, ih, hrhs]

lemma closedDnf_length (i : Nat) : (closedDnf i).length = i + 1 := by
  simp [closedDnf]

lemma gateAtoms_length (j i : Nat) : (gateAtoms j i).length = i - j := by
  simp [gateAtoms]

lemma mem_gateAtoms {j i : Nat} {x : Atom} (hx : x ∈ gateAtoms j i) :
    ∃ m, j + 1 ≤ m ∧ m ≤ i ∧ x = Atom.s m := by
  simp only [gateAtoms, List.mem_map, List.mem_reverse, List.mem_range'_1] at hx
  obtain ⟨m, ⟨hm1, hm2⟩, hxm⟩ := hx
  exact ⟨m, hm1, by omega, hxm.symm⟩

lemma gateAtoms_nodup (j i : Nat) : (gateAtoms j i).Nodup := by
  unfold gateAtoms
  refine List.Nodup.map ?_ ?_
  · intro m₁ m₂ h
    exact Atom.s.injEq m₁ m₂ ▸ h
  · exact List.nodup_reverse.mpr (List.nodup_range' (j + 1) (i - j))

lemma closedClause_nodup (j i : Nat) : (closedClause j i).Nodup := by
  unfold closedClause
  rw [List.nodup_append]
  refine ⟨gateAtoms_nodup j i, List.nodup_singleton _, ?_⟩
  intro x hx hx'
  obtain ⟨m, _, _, hxm⟩ := mem_gateAtoms hx
  simp only [List.mem_singleton] at hx'
  rw [hx'] at hxm
  exact Atom.noConfusion hxm

lemma closedClause_length (j i : Nat) : (closedClause j i).length = (i - j) + 1 := by
  simp [closedClause, gateAtoms_length]

lemma closedDnf_getD {j i : Nat} (h : j ≤ i) :
    (closedDnf i).getD (i - j) [] = closedClause j i := by
  have hk : i - j < i + 1 := by omega
  have e : i - (i - j) = j := by omega
  simp [closedDnf, List.getD, List.get?_eq_getElem?, List.getElem?_map,
    List.getElem?_range hk, e]

lemma pList_getD {i : Nat} (h : i < 32) :
    pList.getD i (BExpr.atomP 0) = BExpr.atomP i := by
  simp [pList, List.getD, List.get?_eq_getElem?, List.getElem?_map,
    List.getElem?_range h]

lemma sList_getD {i : Nat} (h : i < 32) :
    sList.getD i (BExpr.atomP 0) = BExpr.atomS i := by
  simp [sList, List.getD, List.get?_eq_getElem?, List.getElem?_map,
    List.getElem?_range h]

/-- The bit index carried by an atom. -/
def atomIdx : Atom → Nat
  | .p i => i
  | .s i => i

/-- A string free of newline characters, so that it prints as one line. -/
abbrev noNL (str : String) : Prop := '\n' ∉ str.data

lemma noNL_append {s₁ s₂ : String} (h₁ : noNL s₁) (h₂ : noNL s₂) :
    noNL (s₁ ++ s₂) := by
  simp only [noNL, String.data_append, List.mem_append]
  exact fun h => h.elim h₁ h₂

lemma noNL_repr {n : Nat} (h : n < 32) : noNL (Nat.repr n) := by
  revert h
  revert n
  decide

lemma noNL_atomName {x : Atom} (h : atomIdx x < 32) : noNL (atomName x) := by
  cases x with
  | p i =>
    exact noNL_append (noNL_append (noNL_append (noNL_append (by decide)
      (noNL_repr h)) (by decide)) (noNL_repr h)) (by decide)
  | s i =>
    exact noNL_append (noNL_append (noNL_append (noNL_append (by decide)
      (noNL_repr h)) (by decide)) (noNL_repr h)) (by decide)

lemma noNL_joinSep (sep : String) (hsep : noNL sep) :
    ∀ l : List String, (∀ s ∈ l, noNL s) → noNL (joinSep sep l)
  | [], _ => by
    rw [joinSep]
    decide
  | [x], h => by
    rw [joinSep]
    exact h x (List.mem_singleton_self x)
  | x :: y :: rest, h => by
    rw [joinSep]
    exact noNL_append
      (noNL_append (h x (List.mem_cons_self x (y :: rest))) hsep)
      (noNL_joinSep sep hsep (y :: rest)
        (fun s hs => h s (List.mem_cons_of_mem x hs)))

lemma noNL_renderClause {cl : List Atom} (h : ∀ x ∈ cl, atomIdx x < 32) :
    noNL (renderClause cl) := by
  refine noNL_joinSep " & " (by decide) _ ?_
  intro s hs
  obtain ⟨x, hx, rfl⟩ := List.mem_map.mp hs
  exact noNL_atomName (h x hx)

lemma noNL_renderDnf {d : Dnf} (h : ∀ cl ∈ d, ∀ x ∈ cl, atomIdx x < 32) :
    noNL (renderDnf d) := by
  refine noNL_joinSep " | " (by decide) _ ?_
  intro s hs
  obtain ⟨cl, hcl, rfl⟩ := List.mem_map.mp hs
  exact noNL_renderClause (h cl hcl)

lemma mem_closedClause_idx {j i : Nat} {x : Atom} (hj : j ≤ i)
    (hx : x ∈ closedClause j i) : atomIdx x ≤ i := by
  simp only [closedClause, List.mem_append, List.mem_singleton] at hx
  rcases hx with hx | hx
  · obtain ⟨m, _, hm, rfl⟩ := mem_gateAtoms hx
    exact hm
  · rw [hx]
    exact hj

lemma noNL_formatLine {i : Nat} (h : i < 32) : noNL (formatLine i (carry i)) := by
  unfold formatLine
  refine noNL_append (noNL_append (noNL_append (noNL_append (by decide)
    (noNL_repr h)) (by decide)) ?_) (by decide)
  rw [to_dnf_carry]
  refine noNL_renderDnf ?_
  intro cl hcl x hx
  obtain ⟨k, hk, rfl⟩ := List.mem_map.mp hcl
  have hki : i - k ≤ i := Nat.sub_le i k
  exact lt_of_le_of_lt (mem_closedClause_idx hki hx) h

lemma loopIndices_getD {k : Nat} (h : k < 32) : loopIndices.getD k 0 = k := by
  simp [loopIndices, List.getD, List.get?_eq_getElem?, List.getElem?_range h]

lemma formatLine_split (i : Nat) (e : BExpr) :
    formatLine i e
      = "    assign " ++ ("c[" ++ Nat.repr i ++ "]")
          ++ (" = " ++ renderDnf (to_dnf e) ++ ";") := by
  unfold formatLine
  rw [show ("    assign c[" : String) = "    assign " ++ "c[" from by decide,
    show ("] = " : String) = "]" ++ " = " from by decide]
  simp only [String.append_assoc]

/-- C1: the builder constructs exactly the ripple-carry recurrence: the
constructed carry list satisfies `c[0] = p[0]` and, for `1 ≤ i ≤ 31`,
`c[i] = OR(p[i], AND(s[i], c[i-1]))`, where `p[i]`, `s[i]` are the atomic
per-bit terms created for index `i`. -/
theorem C1_ripple_recurrence :
    buildC = Except.ok cList ∧
    cList.getD 0 (BExpr.atomP 0) = pList.getD 0 (BExpr.atomP 0) ∧
    ∀ i, 1 ≤ i → i ≤ 31 →
      cList.getD i (BExpr.atomP 0)
        = BExpr.or (pList.getD i (BExpr.atomP 0))
            (BExpr.and (sList.getD i (BExpr.atomP 0))
              (cList.getD (i - 1) (BExpr.atomP 0))) := by
  refine ⟨buildC_eq, by decide, ?_⟩
  intro i h1 h31
  have h32 : i < 32 := by omega
  obtain ⟨k, rfl⟩ : ∃ k, i = k + 1 := ⟨i - 1, by omega⟩
  rw [cList_getD h32, pList_getD h32, sList_getD h32, Nat.add_sub_cancel,
    cList_getD (show k < 32 by omega)]
  rfl

/-- Witness for C1 at bit index 5. -/
theorem C1_ripple_recurrence_witness :
    cList.getD 5 (BExpr.atomP 0)
      = BExpr.or (pList.getD 5 (BExpr.atomP 0))
          (BExpr.and (sList.getD 5 (BExpr.atomP 0))
            (cList.getD 4 (BExpr.atomP 0))) :=
  C1_ripple_recurrence.2.2 5 (by decide) (by decide)

/-- C2: the program writes exactly 32 lines, one per bit index 0..31, each
of the exact form: four spaces, the literal `assign c[`, the decimal index,
`] = `, the DNF expression string, and a trailing `;`; no line contains a
newline character. -/
theorem C2_output_format :
    output.length = 32 ∧
    ∀ i, i < 32 →
      output.getD i ""
        = "    assign c[" ++ Nat.repr i ++ "] = "
            ++ renderDnf (to_dnf (cList.getD i (BExpr.atomP 0))) ++ ";" ∧
      noNL (output.getD i "") := by
  refine ⟨output_length, ?_⟩
  intro i h
  rw [output_getD h, cList_getD h]
  exact ⟨rfl, noNL_formatLine h⟩

/-- Witness for C2 at line 2. -/
theorem C2_output_format_witness :
    output.getD 2 ""
      = "    assign c[" ++ Nat.repr 2 ++ "] = "
          ++ renderDnf (to_dnf (cList.getD 2 (BExpr.atomP 0))) ++ ";" ∧
    noNL (output.getD 2 "") :=
  C2_output_format.2 2 (by decide)

/-- C3: the printed line at output position `i` contains the substring
`c[<i>]` with that same index, and the bit indices are emitted in strictly
increasing order, one line per index, 32 lines total. -/
theorem C3_line_indices :
    output.length = 32 ∧
    (∀ i, i < 32 →
      ∃ pre post, output.getD i "" = pre ++ ("c[" ++ Nat.repr i ++ "]") ++ post) ∧
    (∀ k₁ k₂, k₁ < k₂ → k₂ < 32 →
      loopIndices.getD k₁ 0 < loopIndices.getD k₂ 0) := by
  refine ⟨output_length, ?_, ?_⟩
  · intro i h
    refine ⟨"    assign ", " = " ++ renderDnf (to_dnf (carry i)) ++ ";", ?_⟩
    rw [output_getD h, formatLine_split]
  · intro k₁ k₂ hlt h32
    rw [loopIndices_getD h32, loopIndices_getD (lt_trans hlt h32)]
    exact hlt

/-- Witness for C3: line 7 contains `c[7]`, and positions 3 and 9 carry
increasing indices. -/
theorem C3_line_indices_witness :
    (∃ pre post, output.getD 7 "" = pre ++ ("c[" ++ Nat.repr 7 ++ "]") ++ post) ∧
    loopIndices.getD 3 0 < loopIndices.getD 9 0 :=
  ⟨C3_line_indices.2.1 7 (by decide), C3_line_indices.2.2 3 9 (by decide) (by decide)⟩

/-- C4: for `0 < i < 32`, the DNF printed for `c[i]`, evaluated under any
assignment to the input bits with `p[j]` read as `AND(a[j], b[j])` and
`s[j]` read as `OR(a[j], b[j])`, is logically equivalent to
`OR(AND(a[i], b[i]), AND(OR(a[i], b[i]), c[i-1]))` under the same recursive
definition: DNF conversion preserves the meaning of the recurrence. -/
theorem C4_dnf_preserves_recurrence :
    ∀ i, 0 < i → i < 32 → ∀ a b : Nat → Bool,
      evalDnf (interp a b) (to_dnf (cList.getD i (BExpr.atomP 0)))
        = ((a i && b i) || ((a i || b i) && specCarry a b (i - 1))) := by
  intro i h0 h32 a b
  rw [cList_getD h32, to_dnf_sound]
  obtain ⟨k, rfl⟩ : ∃ k, i = k + 1 := ⟨i - 1, by omega⟩
  rw [evalExpr_carry, Nat.add_sub_cancel]
  rfl

/-- Witness for C4 at bit index 2 under a concrete assignment. -/
theorem C4_dnf_preserves_recurrence_witness :
    evalDnf (interp (fun n => decide (n = 0)) (fun _ => true))
        (to_dnf (cList.getD 2 (BExpr.atomP 0)))
      = (((fun n => decide (n = 0)) 2 && (fun _ : Nat => true) 2)
          || (((fun n => decide (n = 0)) 2 || (fun _ : Nat => true) 2)
              && specCarry (fun n => decide (n = 0)) (fun _ => true) (2 - 1))) :=
  C4_dnf_preserves_recurrence 2 (by decide) (by decide)
    (fun n => decide (n = 0)) (fun _ => true)

/-- C5: the first output line is `    assign c[0] = <dnf>;` with a DNF
expression logically equivalent to `AND(a[0], b[0])` under every boolean
assignment, and the last (32nd) line is `    assign c[31] = <expr>;`. -/
theorem C5_first_last_line :
    (output.getD 0 "" = "    assign c[0] = " ++ renderDnf (to_dnf (carry 0)) ++ ";"
      ∧ ∀ a b : Nat → Bool,
          evalDnf (interp a b) (to_dnf (carry 0)) = (a 0 && b 0)) ∧
    (∃ e31, output.getD 31 "" = "    assign c[31] = " ++ e31 ++ ";") := by
  refine ⟨⟨?_, ?_⟩, ⟨renderDnf (to_dnf (carry 31)), ?_⟩⟩
  · rw [output_getD (show 0 < 32 by decide)]
    decide
  · intro a b
    rw [to_dnf_sound]
    rfl
  · rw [output_getD (show 31 < 32 by decide)]
    unfold formatLine
    rw [show ("    assign c[" : String) ++ Nat.repr 31 ++ "] = "
      = "    assign c[31] = " from by decide]

/-- C6: the carry sequence has length exactly 32; each `c[i]` mentions only
the atoms `p[0..i]` and `s[1..i]` (so `s[0]` never occurs), is built from
`c[i-1]` at the top level for `i ≥ 1`, and the expression printed at line
`i` is the very expression built at index `i`. -/
theorem C6_atom_invariant :
    cList.length = 32 ∧
    (∀ i, i < 32 → ∀ x ∈ atomsOf (cList.getD i (BExpr.atomP 0)),
      (∃ j, j ≤ i ∧ x = Atom.p j) ∨ (∃ j, 1 ≤ j ∧ j ≤ i ∧ x = Atom.s j)) ∧
    (∀ i, i < 32 → Atom.s 0 ∉ atomsOf (cList.getD i (BExpr.atomP 0))) ∧
    (∀ i, 1 ≤ i → i < 32 →
      cList.getD i (BExpr.atomP 0)
        = BExpr.or (BExpr.atomP i)
            (BExpr.and (BExpr.atomS i) (cList.getD (i - 1) (BExpr.atomP 0)))) ∧
    (∀ i, i < 32 →
      output.getD i "" = formatLine i (cList.getD i (BExpr.atomP 0))) := by
  refine ⟨cList_length, ?_, ?_, ?_, ?_⟩
  · intro i h x hx
    rw [cList_getD h] at hx
    exact atomsOf_carry hx
  · intro i h hx
    rw [cList_getD h] at hx
    rcases atomsOf_carry hx with ⟨j, _, hj⟩ | ⟨j, hj1, _, hj⟩
    · exact Atom.noConfusion hj
    · rw [show j = 0 from ((Atom.s.injEq 0 j ▸ hj : 0 = j)).symm] at hj1
      exact absurd hj1 (by decide)
  · intro i h1 h32
    obtain ⟨k, rfl⟩ : ∃ k, i = k + 1 := ⟨i - 1, by omega⟩
    rw [cList_getD h32, Nat.add_sub_cancel, cList_getD (show k < 32 by omega)]
    rfl
  · intro i h
    rw [output_getD h, cList_getD h]

/-- Witness for C6 at bit index 4. -/
theorem C6_atom_invariant_witness :
    Atom.s 0 ∉ atomsOf (cList.getD 4 (BExpr.atomP 0)) ∧
    output.getD 4 "" = formatLine 4 (cList.getD 4 (BExpr.atomP 0)) :=
  ⟨C6_atom_invariant.2.2.1 4 (by decide), C6_atom_invariant.2.2.2.2 4 (by decide)⟩

/-- C7: the generator is deterministic: two runs in any two invocation
environments (arguments, environment variables) produce identical output
text; the output depends on no input. -/
theorem C7_deterministic :
    ∀ env₁ env₂ : Environment, run env₁ = run env₂ := by
  intro env₁ env₂
  rfl

/-- C8: the construction phase is total and cannot fail: the build loop,
embedded with every fallible list access explicit, returns a success value
holding exactly 32 expressions. -/
theorem C8_construction_total :
    ∃ l, buildC = Except.ok l ∧ l.length = 32 := by
  exact ⟨cList, buildC_eq, cList_length⟩

/-- C9: the DNF conversion, run with fuel equal to the expression size,
terminates with a result on every carry expression in the sequence, and the
whole run emits all 32 lines. -/
theorem C9_dnf_terminates :
    (∀ i, i < 32 →
      to_dnfFuel (exprSize (cList.getD i (BExpr.atomP 0)))
          (cList.getD i (BExpr.atomP 0))
        = some (to_dnf (cList.getD i (BExpr.atomP 0)))) ∧
    output.length = 32 := by
  refine ⟨?_, output_length⟩
  intro i h
  exact to_dnfFuel_complete _ _ (le_refl _)

/-- Witness for C9 at bit index 3. -/
theorem C9_dnf_terminates_witness :
    to_dnfFuel (exprSize (cList.getD 3 (BExpr.atomP 0)))
        (cList.getD 3 (BExpr.atomP 0))
      = some (to_dnf (cList.getD 3 (BExpr.atomP 0))) :=
  C9_dnf_terminates.1 3 (by decide)

/-- C10: closed form of the generated DNF: `c[i]` is logically equivalent
to the disjunction over `j ≤ i` of `p[j] AND s[j+1] AND ... AND s[i]`; its
DNF has exactly `i+1` disjuncts, and the disjunct for generate position `j`
is the clause consisting of the single atom `p[j]` together with the `i-j`
distinct gate atoms `s[j+1..i]`. -/
theorem C10_closed_form :
    ∀ i, i < 32 →
      (∀ v : Valuation,
        evalExpr v (cList.getD i (BExpr.atomP 0)) = evalDnf v (closedDnf i)) ∧
      (to_dnf (cList.getD i (BExpr.atomP 0))).length = i + 1 ∧
      (∀ j, j ≤ i →
        (to_dnf (cList.getD i (BExpr.atomP 0))).getD (i - j) [] = closedClause j i ∧
        (closedClause j i).length = (i - j) + 1 ∧
        (closedClause j i).Nodup ∧
        ∃ g, closedClause j i = g ++ [Atom.p j] ∧ g.length = i - j ∧
          ∀ x ∈ g, ∃ m, j + 1 ≤ m ∧ m ≤ i ∧ x = Atom.s m) := by
  intro i h
  have hc : cList.getD i (BExpr.atomP 0) = carry i := cList_getD h
  refine ⟨?_, ?_, ?_⟩
  · intro v
    rw [hc, ← to_dnf_sound, to_dnf_carry]
  · rw [hc, to_dnf_carry, closedDnf_length]
  · intro j hj
    refine ⟨?_, closedClause_length j i, closedClause_nodup j i,
      gateAtoms j i, rfl, gateAtoms_length j i, ?_⟩
    · rw [hc, to_dnf_carry]
      exact closedDnf_getD hj
    · intro x hx
      exact mem_gateAtoms hx

/-- Witness for C10 at `i = 3`, `j = 1`. -/
theorem C10_closed_form_witness :
    (to_dnf (cList.getD 3 (BExpr.atomP 0))).length = 3 + 1 ∧
    (to_dnf (cList.getD 3 (BExpr.atomP 0))).getD (3 - 1) [] = closedClause 1 3 :=
  ⟨(C10_closed_form 3 (by decide)).2.1,
    ((C10_closed_form 3 (by decide)).2.2 1 (by decide)).1⟩

end AdderDerivation
